import Mathlib

/-!
Verification of the embedding pipeline and similarity ranker of
`src/models_hf/src/bert.rs` (`BertInferenceModel`).

The verified core consists of the pure tensor routines of the model:
`apply_max_pooling`, `apply_mean_pooling`, `l2_normalize`,
`score_vector_similarity`, and the two encoding entry points
`infer_sentence_embedding` and `create_embeddings`.

Modelling choices:
- Tensors are nested lists over a scalar type `K` (a linear ordered field,
  instantiated at `ℚ` for executable checks and at `ℝ` where square roots of
  non-squares appear).  Rank-3 hidden states are `HS K`, rank-2 matrices are
  `Mat K`.
- f32 values that can be NaN are modelled by `FV K`: either `FV.nan` or a
  finite value `FV.fin x`.  Arithmetic propagates NaN.  Division by zero
  yields NaN; in the flows modelled here a zero divisor only ever occurs
  together with a zero dividend (a row divided by its own zero norm), where
  f32 division also yields NaN, so infinite values are unreachable and are
  not modelled.
- `Vec::sort_by` with the comparator `|a, b| b.1.partial_cmp(&a.1).unwrap()`
  is modelled by a stable insertion sort over a partial comparator; a
  comparison that returns `none` (a NaN operand) aborts with
  `RTErr.unwrapNone`, the model of the `unwrap` panic.  Like every
  comparison sort, the model performs no comparison on lists of length at
  most one, and it performs at least one comparison involving every element
  of a longer list, matching the panic behavior of the Rust stable sort.
- The tokenizer and the transformer forward pass are external collaborators
  (opaque in the spec); they are passed as function arguments to the two
  encoding entry points.
-/

set_option linter.unusedSectionVars false
set_option linter.unusedVariables false

instance {ε α : Type} [DecidableEq ε] [DecidableEq α] :
    DecidableEq (Except ε α) := fun a b =>
  match a, b with
  | .error e1, .error e2 => decidable_of_iff (e1 = e2) (by simp)
  | .ok a1, .ok a2 => decidable_of_iff (a1 = a2) (by simp)
  | .error _, .ok _ => isFalse (by simp)
  | .ok _, .error _ => isFalse (by simp)

namespace DenseSearch

/-- Scalar square-root operation, abstracting f32 `sqrt`.  The law
`sqrt_zero` is the only fact about square roots the generic development
relies on; the real-number instance is the idealized f32 square root. -/
class SqrtOp (K : Type) [Zero K] where
  sqrt : K → K
  sqrt_zero : sqrt 0 = 0

/-- Rational square root used only to evaluate witnesses on concrete inputs;
it agrees with the real square root on ratios of perfect squares (the only
points where witnesses evaluate it). -/
def ratSqrt (q : ℚ) : ℚ := mkRat (Nat.sqrt q.num.toNat) (Nat.sqrt q.den)

instance : SqrtOp ℚ where
  sqrt := ratSqrt
  sqrt_zero := by decide

/-- The idealized f32 square root on the reals, used only in theorem
statements about irrational norms; executable checks run at `ℚ`. -/
noncomputable instance : SqrtOp ℝ where
  sqrt := Real.sqrt
  sqrt_zero := Real.sqrt_zero

/-- Rank-3 tensor `(batch, seq_len, hidden)` as nested lists. -/
abbrev HS (K : Type) := List (List (List K))

/-- Rank-2 tensor `(batch, hidden)` as nested lists. -/
abbrev Mat (K : Type) := List (List K)

/-- A possibly-NaN f32 value. -/
inductive FV (K : Type) where
  | nan : FV K
  | fin (x : K) : FV K
deriving DecidableEq

variable {K : Type} [LinearOrderedField K] [SqrtOp K]

/-- f32 addition: NaN propagates. -/
def FV.add : FV K → FV K → FV K
  | .fin a, .fin b => .fin (a + b)
  | _, _ => .nan

/-- f32 multiplication: NaN propagates. -/
def FV.mul : FV K → FV K → FV K
  | .fin a, .fin b => .fin (a * b)
  | _, _ => .nan

/-- f32 division: NaN propagates, and division by zero yields NaN (see the
file comment: a zero divisor only occurs with a zero dividend here). -/
def FV.div : FV K → FV K → FV K
  | .fin a, .fin b => if b = 0 then .nan else .fin (a / b)
  | _, _ => .nan

/-- f32 square root lifted to possibly-NaN values. -/
def FV.sqrt : FV K → FV K
  | .nan => .nan
  | .fin x => .fin (SqrtOp.sqrt x)

/-- Sum of a list of possibly-NaN values (model of `sum_all`). -/
def sumF (l : List (FV K)) : FV K := l.foldr FV.add (.fin 0)

/-- Dot product of two equal-length vectors, the model of
`(&cur_vec * &vector)?.sum_all()?` in `score_vector_similarity`. -/
def dotF (v w : List (FV K)) : FV K := sumF (List.zipWith FV.mul v w)

/-- Reduction of a rank-2 slice along its first axis by a binary operation;
the model of the candle reductions `max(1)` and `sum(1)` applied to one
batch element. -/
def reduceAxis1 (f : K → K → K) : List (List K) → List K
  | [] => []
  | r :: rs => rs.foldl (List.zipWith f) r

/-- Model of `BertInferenceModel::apply_max_pooling`: `embeddings.max(1)`,
the elementwise maximum along the sequence axis of each batch element. -/
def apply_max_pooling (t : HS K) : Mat K := t.map (reduceAxis1 max)

/-- Sequence length read off the tensor shape, the model of the `n_tokens`
component of `dims3()`. -/
def nTokens (t : HS K) : Nat := (t.headD []).length

/-- Model of `BertInferenceModel::apply_mean_pooling`:
`embeddings.sum(1)? / (n_tokens as f64)`, the sum along the sequence axis
divided by the raw sequence length (padding positions included). -/
def apply_mean_pooling (t : HS K) : Mat K :=
  (t.map (reduceAxis1 (· + ·))).map (fun row => row.map (fun x => x / (nTokens t : K)))

/-- Sum of squares of a row, the model of `sqr()?.sum_keepdim(1)?` for one
row. -/
def sumSq (row : List K) : K := (row.map (fun x => x * x)).sum

/-- Model of `BertInferenceModel::l2_normalize`:
`embeddings.broadcast_div(embeddings.sqr()?.sum_keepdim(1)?.sqrt()?)`.
Each row is divided by the square root of its own sum of squares.  For a
well-formed rank-2 input none of the candle calls can fail, so the model is
total; a zero-norm row produces NaN entries (0/0), not an error. -/
def l2_normalize (m : Mat K) : List (List (FV K)) :=
  m.map (fun row => row.map (fun x => FV.div (.fin x) (.fin (SqrtOp.sqrt (sumSq row)))))

/-- L2 norm of a possibly-NaN row, used to state the normalization
postcondition: the square root of the sum of squared entries. -/
def rowNormF (row : List (FV K)) : FV K :=
  FV.sqrt (sumF (row.map (fun x => FV.mul x x)))

/-- Runtime failure modes of the ranker.  `unwrapNone` models the panic of
`partial_cmp(..).unwrap()` on a NaN comparison; `numericError` is the typed
error the specification prescribes for that case, which the code never
produces. -/
inductive RTErr where
  | unwrapNone : RTErr
  | numericError : RTErr
deriving DecidableEq

/-- Partial comparison of two possibly-NaN scores, the model of f32
`partial_cmp`: `none` exactly when an operand is NaN. -/
def pcmp : FV K → FV K → Option Ordering
  | .fin a, .fin b => some (if a < b then .lt else if b < a then .gt else .eq)
  | _, _ => none

/-- One insertion step of the stable sort used to model
`scores.sort_by(|a, b| b.1.partial_cmp(&a.1).unwrap())`: the new element
`x` moves past every element whose score is at least its own (keeping ties
in original order) and lands before the first strictly smaller score.  A
`none` comparison aborts like the `unwrap` panic. -/
def insertDesc (x : Nat × FV K) :
    List (Nat × FV K) → Except RTErr (List (Nat × FV K))
  | [] => .ok [x]
  | y :: ys =>
    match pcmp y.2 x.2 with
    | none => .error .unwrapNone
    | some .lt => .ok (x :: y :: ys)
    | some _ =>
      match insertDesc x ys with
      | .error e => .error e
      | .ok rest => .ok (y :: rest)

/-- Stable insertion sort over the partial descending-score comparator;
`acc` is the already-sorted prefix. -/
def sortScores (acc : List (Nat × FV K)) :
    List (Nat × FV K) → Except RTErr (List (Nat × FV K))
  | [] => .ok acc
  | x :: xs =>
    match insertDesc x acc with
    | .error e => .error e
    | .ok acc' => sortScores acc' xs

/-- The score vector built by the loop in `score_vector_similarity`: for
every row index `i` in `[0, corpus_size)` the pair `(i, dot(store[i],
query))`. -/
def scoreList (store : List (List (FV K))) (vector : List (FV K)) :
    List (Nat × FV K) :=
  (List.range store.length).map (fun i => (i, dotF (store.getD i []) vector))

/-- Model of `BertInferenceModel::score_vector_similarity`: score every row
of the store by its dot product with the query, sort the `(index, score)`
pairs by score descending, and keep the first `top_k`. -/
def score_vector_similarity (store : List (List (FV K))) (vector : List (FV K))
    (top_k : Nat) : Except RTErr (List (Nat × FV K)) :=
  match sortScores [] (scoreList store vector) with
  | .error e => .error e
  | .ok sorted => .ok (sorted.take top_k)

/-- Model of `token_ids.zeros_like()`: an all-zero token-type tensor of the
same shape as the token ids. -/
def zerosLike (ids : List (List Nat)) : List (List Nat) :=
  ids.map (fun r => r.map (fun _ => 0))

/-- Model of `BertInferenceModel::infer_sentence_embedding`.  The tokenizer
(`tok`, the model of `tokenizer.encode(sentence, true)`) and the
transformer forward pass (`forward`, taking token ids and token-type ids)
are opaque external collaborators passed as arguments.  `unsqueeze(0)` on
the encoded sentence is the singleton batch `[tok sentence]`. -/
def infer_sentence_embedding (tok : String → List Nat)
    (forward : List (List Nat) → List (List Nat) → HS K)
    (sentence : String) : List (List (FV K)) :=
  let token_ids := [tok sentence]
  l2_normalize (apply_max_pooling (forward token_ids (zerosLike token_ids)))

/-- Model of `BertInferenceModel::create_embeddings`.  `encode_batch` is the
opaque model of `tokenizer.encode_batch(sentences, true)` followed by the
per-sentence `Tensor::stack`; `forward` as in `infer_sentence_embedding`. -/
def create_embeddings (encode_batch : List String → List (List Nat))
    (forward : List (List Nat) → List (List Nat) → HS K)
    (sentences : List String) : List (List (FV K)) :=
  let token_ids := encode_batch sentences
  l2_normalize (apply_max_pooling (forward token_ids (zerosLike token_ids)))

/-- Strict order on scores: both finite and strictly increasing. -/
def fvLt (a b : FV K) : Prop := ∃ p q, a = .fin p ∧ b = .fin q ∧ p < q

/-- Weak order on scores: both finite and nondecreasing. -/
def fvLe (a b : FV K) : Prop := ∃ p q, a = .fin p ∧ b = .fin q ∧ p ≤ q

/-- Invariant relation of the descending stable sort: either the later
score is strictly smaller, or the scores are equal finite values and the
indices are in ascending order. -/
def Rsort (a b : Nat × FV K) : Prop :=
  fvLt b.2 a.2 ∨ ∃ q, a.2 = .fin q ∧ b.2 = .fin q ∧ a.1 < b.1

/-- The ordering the specification claims for the ranker output: scores
descending, and ties broken by ascending store index. -/
def sortedPair (a b : Nat × FV K) : Prop :=
  fvLe b.2 a.2 ∧ (a.2 = b.2 → a.1 < b.1)

theorem sqrtOp_real (x : ℝ) : SqrtOp.sqrt x = Real.sqrt x := rfl

theorem Rsort.toSortedPair {a b : Nat × FV K} (h : Rsort a b) : sortedPair a b := by
  rcases h with ⟨p, q, hb, ha, hpq⟩ | ⟨q, ha, hb, hab⟩
  · refine ⟨⟨p, q, hb, ha, le_of_lt hpq⟩, fun hEq => ?_⟩
    rw [ha, hb] at hEq
    cases hEq
    exact absurd hpq (lt_irrefl p)
  · exact ⟨⟨q, q, hb, ha, le_refl q⟩, fun _ => hab⟩

theorem FV.ne_nan_iff {a : FV K} : a ≠ .nan ↔ ∃ p, a = .fin p := by
  cases a <;> simp

theorem pcmp_none_left {b : FV K} : pcmp .nan b = none := by
  cases b <;> rfl

theorem pcmp_none_right {a : FV K} : pcmp a .nan = none := by
  cases a <;> rfl

theorem pcmp_fin {p q : K} :
    pcmp (.fin p) (.fin q) =
      some (if p < q then .lt else if q < p then .gt else .eq) := rfl

theorem pcmp_lt {p q : K} (h : pcmp (.fin p) (.fin q) = some .lt) : p < q := by
  rw [pcmp_fin] at h
  split_ifs at h with h1 h2
  · exact h1
  all_goals simp_all

theorem pcmp_eq {p q : K} (h : pcmp (.fin p) (.fin q) = some .eq) : p = q := by
  rw [pcmp_fin] at h
  split_ifs at h with h1 h2
  · simp_all
  · simp_all
  · exact le_antisymm (le_of_not_lt h2) (le_of_not_lt h1)

theorem pcmp_gt {p q : K} (h : pcmp (.fin p) (.fin q) = some .gt) : q < p := by
  rw [pcmp_fin] at h
  split_ifs at h with h1 h2
  · simp_all
  · exact h2
  · simp_all

theorem insertDesc_error_eq {x : Nat × FV K} :
    ∀ {acc : List (Nat × FV K)} {e : RTErr}, insertDesc x acc = .error e →
      e = .unwrapNone := by
  intro acc
  induction acc with
  | nil => intro e h; simp [insertDesc] at h
  | cons y ys ih =>
    intro e h
    rw [insertDesc] at h
    cases hc : pcmp y.2 x.2 with
    | none => rw [hc] at h; exact (Except.error.inj h).symm
    | some o =>
      rw [hc] at h
      cases o with
      | lt => simp at h
      | eq | gt =>
        cases hrec : insertDesc x ys with
        | error e2 => rw [hrec] at h; exact (Except.error.inj h) ▸ ih hrec
        | ok rest => rw [hrec] at h; simp at h

theorem insertDesc_perm {x : Nat × FV K} :
    ∀ {acc out : List (Nat × FV K)}, insertDesc x acc = .ok out →
      out.Perm (x :: acc) := by
  intro acc
  induction acc with
  | nil =>
    intro out h
    rw [insertDesc] at h
    cases Except.ok.inj h
    exact List.Perm.refl _
  | cons y ys ih =>
    intro out h
    rw [insertDesc] at h
    cases hc : pcmp y.2 x.2 with
    | none => rw [hc] at h; simp at h
    | some o =>
      rw [hc] at h
      cases o with
      | lt => cases Except.ok.inj h; exact List.Perm.refl _
      | eq | gt =>
        all_goals
          cases hrec : insertDesc x ys with
          | error e2 => rw [hrec] at h; simp at h
          | ok rest =>
            rw [hrec] at h
            cases Except.ok.inj h
            exact ((ih hrec).cons y).trans (List.Perm.swap x y ys)

theorem insertDesc_nan_new {x : Nat × FV K} (hx : x.2 = .nan)
    (y : Nat × FV K) (ys : List (Nat × FV K)) :
    insertDesc x (y :: ys) = .error .unwrapNone := by
  rw [insertDesc, hx, pcmp_none_right]

theorem insertDesc_nan_head {x y : Nat × FV K} (hy : y.2 = .nan)
    (ys : List (Nat × FV K)) :
    insertDesc x (y :: ys) = .error .unwrapNone := by
  rw [insertDesc, hy, pcmp_none_left]

theorem insertDesc_ok_of_fin {x : Nat × FV K} :
    ∀ {acc : List (Nat × FV K)}, (∀ z ∈ acc, z.2 ≠ FV.nan) → x.2 ≠ FV.nan →
      ∃ out, insertDesc x acc = .ok out := by
  intro acc
  induction acc with
  | nil => intro _ _; exact ⟨[x], rfl⟩
  | cons y ys ih =>
    intro hacc hx
    obtain ⟨q, hq⟩ := FV.ne_nan_iff.mp hx
    obtain ⟨p, hp⟩ := FV.ne_nan_iff.mp (hacc y (List.mem_cons_self y ys))
    rw [insertDesc, hp, hq, pcmp_fin]
    obtain ⟨rest, hrest⟩ := ih (fun z hz => hacc z (List.mem_cons_of_mem y hz)) hx
    split_ifs with h1 h2
    · exact ⟨x :: y :: ys, rfl⟩
    · exact ⟨y :: rest, by rw [hrest]⟩
    · exact ⟨y :: rest, by rw [hrest]⟩

theorem insertDesc_sorted {x : Nat × FV K} :
    ∀ {acc out : List (Nat × FV K)}, (∀ z ∈ acc, z.2 ≠ FV.nan) →
      x.2 ≠ FV.nan → (∀ z ∈ acc, z.1 < x.1) → acc.Pairwise Rsort →
      insertDesc x acc = .ok out → out.Pairwise Rsort := by
  intro acc
  induction acc with
  | nil =>
    intro out _ _ _ _ h
    rw [insertDesc] at h
    cases Except.ok.inj h
    exact List.pairwise_singleton _ _
  | cons y ys ih =>
    intro out hfin hx hidx hsort h
    obtain ⟨q, hq⟩ := FV.ne_nan_iff.mp hx
    obtain ⟨p, hp⟩ := FV.ne_nan_iff.mp (hfin y (List.mem_cons_self y ys))
    rw [insertDesc] at h
    rw [List.pairwise_cons] at hsort
    obtain ⟨hyRel, hysSorted⟩ := hsort
    cases hc : pcmp y.2 x.2 with
    | none => rw [hc] at h; simp at h
    | some o =>
      rw [hc] at h
      rw [hp, hq] at hc
      cases o with
      | lt =>
        cases Except.ok.inj h
        have hpq : p < q := pcmp_lt hc
        refine List.pairwise_cons.mpr ⟨?_, List.pairwise_cons.mpr ⟨hyRel, hysSorted⟩⟩
        intro z hz
        rcases List.mem_cons.mp hz with rfl | hz
        · exact Or.inl ⟨p, q, hp, hq, hpq⟩
        · rcases hyRel z hz with ⟨r, p', hr, hp', hrp⟩ | ⟨r, hyr, hzr, _⟩
          · rw [hp] at hp'
            cases hp'
            exact Or.inl ⟨r, q, hr, hq, lt_trans hrp hpq⟩
          · rw [hp] at hyr
            cases hyr
            exact Or.inl ⟨p, q, hzr, hq, hpq⟩
      | eq | gt =>
        all_goals
          cases hrec : insertDesc x ys with
          | error e2 => rw [hrec] at h; simp at h
          | ok rest =>
            rw [hrec] at h
            cases Except.ok.inj h
            refine List.pairwise_cons.mpr ⟨?_,
              ih (fun z hz => hfin z (List.mem_cons_of_mem y hz)) hx
                (fun z hz => hidx z (List.mem_cons_of_mem y hz)) hysSorted hrec⟩
            intro z hz
            have hz' : z = x ∨ z ∈ ys :=
              List.mem_cons.mp ((insertDesc_perm hrec).mem_iff.mp hz)
            rcases hz' with rfl | hz'
            · first
              | exact Or.inr ⟨p, hp, by rw [hq, pcmp_eq hc], hidx y (List.mem_cons_self y ys)⟩
              | exact Or.inl ⟨q, p, hq, hp, pcmp_gt hc⟩
            · exact hyRel z hz'

theorem sortScores_error_eq :
    ∀ {l acc : List (Nat × FV K)} {e : RTErr}, sortScores acc l = .error e →
      e = .unwrapNone := by
  intro l
  induction l with
  | nil => intro acc e h; simp [sortScores] at h
  | cons x xs ih =>
    intro acc e h
    rw [sortScores] at h
    cases hins : insertDesc x acc with
    | error e2 => rw [hins] at h; exact (Except.error.inj h) ▸ insertDesc_error_eq hins
    | ok acc2 => rw [hins] at h; exact ih h

theorem sortScores_perm :
    ∀ {l acc out : List (Nat × FV K)}, sortScores acc l = .ok out →
      out.Perm (acc ++ l) := by
  intro l
  induction l with
  | nil =>
    intro acc out h
    rw [sortScores] at h
    cases Except.ok.inj h
    simp
  | cons x xs ih =>
    intro acc out h
    rw [sortScores] at h
    cases hins : insertDesc x acc with
    | error e2 => rw [hins] at h; simp at h
    | ok acc2 =>
      rw [hins] at h
      have h1 : out.Perm (acc2 ++ xs) := ih h
      have h2 : (acc2 ++ xs).Perm ((x :: acc) ++ xs) :=
        (insertDesc_perm hins).append_right xs
      exact (h1.trans h2).trans List.perm_middle.symm

theorem sortScores_fin :
    ∀ {l acc : List (Nat × FV K)}, (∀ z ∈ acc, z.2 ≠ FV.nan) →
      (∀ z ∈ l, z.2 ≠ FV.nan) → (∀ z ∈ acc, ∀ w ∈ l, z.1 < w.1) →
      l.Pairwise (fun a b => a.1 < b.1) → acc.Pairwise Rsort →
      ∃ out, sortScores acc l = .ok out ∧ out.Pairwise Rsort := by
  intro l
  induction l with
  | nil => intro acc _ _ _ _ hsort; exact ⟨acc, rfl, hsort⟩
  | cons x xs ih =>
    intro acc haccfin hlfin hcross hlpair haccsort
    have hxfin : x.2 ≠ FV.nan := hlfin x (List.mem_cons_self x xs)
    obtain ⟨acc2, hins⟩ := insertDesc_ok_of_fin haccfin hxfin
    have hidx : ∀ z ∈ acc, z.1 < x.1 :=
      fun z hz => hcross z hz x (List.mem_cons_self x xs)
    have hacc2sort : acc2.Pairwise Rsort :=
      insertDesc_sorted haccfin hxfin hidx haccsort hins
    rw [List.pairwise_cons] at hlpair
    obtain ⟨hxRel, hxsPair⟩ := hlpair
    have hmem2 : ∀ z ∈ acc2, z = x ∨ z ∈ acc :=
      fun z hz => List.mem_cons.mp ((insertDesc_perm hins).mem_iff.mp hz)
    have hacc2fin : ∀ z ∈ acc2, z.2 ≠ FV.nan := by
      intro z hz
      rcases hmem2 z hz with rfl | hz'
      · exact hxfin
      · exact haccfin z hz'
    have hcross2 : ∀ z ∈ acc2, ∀ w ∈ xs, z.1 < w.1 := by
      intro z hz w hw
      rcases hmem2 z hz with rfl | hz'
      · exact hxRel w hw
      · exact hcross z hz' w (List.mem_cons_of_mem x hw)
    obtain ⟨out, hout, houtsort⟩ :=
      ih hacc2fin (fun z hz => hlfin z (List.mem_cons_of_mem x hz)) hcross2
        hxsPair hacc2sort
    refine ⟨out, ?_, houtsort⟩
    rw [sortScores, hins]
    exact hout

theorem sortScores_nan_err :
    ∀ {l acc : List (Nat × FV K)}, acc ≠ [] → (∃ z ∈ l, z.2 = FV.nan) →
      sortScores acc l = .error .unwrapNone := by
  intro l
  induction l with
  | nil => intro acc _ h; simp at h
  | cons x xs ih =>
    intro acc hne hnan
    by_cases hx : x.2 = FV.nan
    · obtain ⟨y, ys, rfl⟩ := List.exists_cons_of_ne_nil hne
      rw [sortScores, insertDesc_nan_new hx y ys]
    · cases hins : insertDesc x acc with
      | error e2 =>
        rw [sortScores, hins, insertDesc_error_eq hins]
      | ok acc2 =>
        rw [sortScores, hins]
        have hne2 : acc2 ≠ [] := by
          intro hcontra
          have := (insertDesc_perm hins).length_eq
          rw [hcontra] at this
          simp at this
        obtain ⟨z, hz, hzn⟩ := hnan
        rcases List.mem_cons.mp hz with rfl | hz'
        · exact absurd hzn hx
        · exact ih hne2 ⟨z, hz', hzn⟩

theorem sortScores_nil_cons {x : Nat × FV K} {xs : List (Nat × FV K)} :
    sortScores [] (x :: xs) = sortScores [x] xs := rfl

theorem sortScores_nan_of_two {l : List (Nat × FV K)} (hlen : 2 ≤ l.length)
    (hnan : ∃ z ∈ l, z.2 = FV.nan) :
    sortScores [] l = .error .unwrapNone := by
  match l, hlen with
  | a :: b :: rest, _ =>
    rw [sortScores_nil_cons]
    by_cases ha : a.2 = FV.nan
    · rw [sortScores, insertDesc_nan_head ha ([] : List (Nat × FV K))]
    · obtain ⟨z, hz, hzn⟩ := hnan
      rcases List.mem_cons.mp hz with rfl | hz'
      · exact absurd hzn ha
      · exact sortScores_nan_err (List.cons_ne_nil a []) ⟨z, hz', hzn⟩

theorem pairwise_of_length_le_one {α : Type} {R : α → α → Prop} :
    ∀ {l : List α}, l.length ≤ 1 → l.Pairwise R
  | [], _ => List.Pairwise.nil
  | [x], _ => List.pairwise_singleton R x
  | _ :: _ :: _, h => absurd h (by simp)

theorem scoreList_pairwise_fst {store : List (List (FV K))}
    {vector : List (FV K)} :
    (scoreList store vector).Pairwise (fun a b => a.1 < b.1) := by
  unfold scoreList
  exact List.Pairwise.map _ (fun a b h => h) (List.pairwise_lt_range _)

theorem scoreList_length {store : List (List (FV K))} {vector : List (FV K)} :
    (scoreList store vector).length = store.length := by
  simp [scoreList]

/-- C1: for every embedding store and every query vector of matching
dimensionality, the list returned by `score_vector_similarity` is sorted by
score descending, and entries with equal scores appear in ascending
store-index order (stable tie-break preserving the original index
order). -/
theorem c1_ranking_descending_stable (store : List (List (FV K)))
    (vector : List (FV K)) (top_k : Nat) (res : List (Nat × FV K))
    (hdim : ∀ row ∈ store, row.length = vector.length)
    (hres : score_vector_similarity store vector top_k = .ok res) :
    res.Pairwise sortedPair := by
  unfold score_vector_similarity at hres
  split at hres
  · simp at hres
  · rename_i sorted heq
    cases Except.ok.inj hres
    by_cases hlen : (scoreList store vector).length ≤ 1
    · have hperm : sorted.Perm (scoreList store vector) := by
        simpa using sortScores_perm heq
      apply pairwise_of_length_le_one
      calc (sorted.take top_k).length ≤ sorted.length := by
            rw [List.length_take]; exact min_le_right _ _
        _ = (scoreList store vector).length := hperm.length_eq
        _ ≤ 1 := hlen
    · push_neg at hlen
      have hfin : ∀ z ∈ scoreList store vector, z.2 ≠ FV.nan := by
        intro z hz hzn
        have herr := sortScores_nan_of_two hlen ⟨z, hz, hzn⟩
        rw [herr] at heq
        simp at heq
      obtain ⟨out, hout, houtsort⟩ :=
        sortScores_fin (l := scoreList store vector) (by simp) hfin (by simp)
          scoreList_pairwise_fst List.Pairwise.nil
      rw [hout] at heq
      cases Except.ok.inj heq
      exact (List.Pairwise.sublist (List.take_sublist _ _) houtsort).imp
        Rsort.toSortedPair

/-- C1 witness: a concrete three-row store in which every score ties; the
returned ranking keeps the three tied entries in ascending index order. -/
theorem c1_witness :
    (∀ row ∈ ([[], [], []] : List (List (FV ℚ))),
        row.length = ([] : List (FV ℚ)).length) ∧
      ([((0 : Nat), FV.fin (0 : ℚ)), (1, FV.fin 0), (2, FV.fin 0)] :
          List (Nat × FV ℚ)).Pairwise sortedPair :=
  ⟨by decide,
    c1_ranking_descending_stable [[], [], []] [] 3 _ (by decide) (by decide)⟩

/-- C2 (amended): a NaN similarity score is not reported as a typed
NumericError.  With at least two store rows, any NaN score makes the
comparator closure `b.1.partial_cmp(&a.1).unwrap()` panic, which aborts
the call instead of returning a typed error. -/
theorem c2_nan_panics_not_numeric_error (store : List (List (FV K)))
    (vector : List (FV K)) (top_k : Nat) (h2 : 2 ≤ store.length)
    (hnan : ∃ i, i < store.length ∧ dotF (store.getD i []) vector = FV.nan) :
    score_vector_similarity store vector top_k = .error .unwrapNone := by
  unfold score_vector_similarity
  obtain ⟨i, hi, hd⟩ := hnan
  have hmem : (i, dotF (store.getD i []) vector) ∈ scoreList store vector :=
    List.mem_map.mpr ⟨i, List.mem_range.mpr hi, rfl⟩
  have herr := sortScores_nan_of_two (by rw [scoreList_length]; exact h2)
    ⟨_, hmem, hd⟩
  rw [herr]

/-- C2 counterexample: with a single store row whose score is NaN, the sort
performs no comparison at all, so `score_vector_similarity` silently
returns the NaN-scored result as a success instead of failing fast with a
NumericError. -/
theorem c2_counterexample :
    score_vector_similarity (K := ℚ) [[FV.nan]] [FV.fin 1] 1 =
      .ok [(0, FV.nan)] := rfl

/-- C2 witness: a two-row store whose first row yields a NaN score makes
the call abort with the unwrap panic. -/
theorem c2_witness :
    (2 ≤ ([[FV.nan], [FV.fin 0]] : List (List (FV ℚ))).length ∧
        dotF (([[FV.nan], [FV.fin 0]] : List (List (FV ℚ))).getD 0 [])
          [FV.fin 1] = FV.nan) ∧
      score_vector_similarity (K := ℚ) [[FV.nan], [FV.fin 0]] [FV.fin 1] 5 =
        .error .unwrapNone :=
  ⟨⟨by decide, by decide⟩,
    c2_nan_panics_not_numeric_error [[FV.nan], [FV.fin 0]] [FV.fin 1] 5
      (by decide) ⟨0, by decide, by decide⟩⟩

/-- C5 (amended): provided every computed score is comparable (no NaN),
`score_vector_similarity` returns at most `top_k` entries; if
`corpus_size < top_k` it returns all `N` entries without error; and for
`top_k == 0` it returns an empty sequence.  The NaN proviso is forced: the
sort runs before truncation, so a NaN score with at least two rows panics
even when `top_k == 0`. -/
theorem c5_truncation_of_comparable (store : List (List (FV K)))
    (vector : List (FV K)) (top_k : Nat)
    (hfin : ∀ i, i < store.length → dotF (store.getD i []) vector ≠ FV.nan) :
    ∃ res, score_vector_similarity store vector top_k = .ok res ∧
      res.length ≤ top_k ∧
      (store.length < top_k → res.length = store.length) ∧
      (top_k = 0 → res = []) := by
  have hfin' : ∀ z ∈ scoreList store vector, z.2 ≠ FV.nan := by
    intro z hz
    obtain ⟨i, hi, rfl⟩ := List.mem_map.mp hz
    exact hfin i (List.mem_range.mp hi)
  obtain ⟨out, hout, _⟩ :=
    sortScores_fin (l := scoreList store vector) (by simp) hfin' (by simp)
      scoreList_pairwise_fst List.Pairwise.nil
  have hlenout : out.length = store.length := by
    have := (sortScores_perm hout).length_eq
    simpa [scoreList_length] using this
  refine ⟨out.take top_k, ?_, ?_, ?_, ?_⟩
  · unfold score_vector_similarity
    rw [hout]
  · rw [List.length_take]; exact min_le_left _ _
  · intro h; rw [List.length_take, hlenout]; omega
  · intro h; rw [h]; exact List.take_zero _

/-- C5 counterexample: with `top_k == 0` but a NaN score in a two-row
store, the call panics during sorting instead of returning an empty
sequence, so the result does not hold regardless of store contents. -/
theorem c5_counterexample :
    score_vector_similarity (K := ℚ) [[FV.nan], [FV.fin 0]] [FV.fin 1] 0 =
      .error .unwrapNone := rfl

/-- C5 witness: a two-row store with comparable scores, `top_k = 5`,
exercising the amended truncation guarantees. -/
theorem c5_witness :
    (∀ i, i < ([[FV.fin 2], [FV.fin 1]] : List (List (FV ℚ))).length →
        dotF (([[FV.fin 2], [FV.fin 1]] : List (List (FV ℚ))).getD i [])
          [FV.fin 1] ≠ FV.nan) ∧
      ∃ res, score_vector_similarity (K := ℚ) [[FV.fin 2], [FV.fin 1]]
          [FV.fin 1] 5 = .ok res ∧
        res.length ≤ 5 ∧
        (([[FV.fin 2], [FV.fin 1]] : List (List (FV ℚ))).length < 5 →
          res.length = ([[FV.fin 2], [FV.fin 1]] : List (List (FV ℚ))).length) ∧
        (5 = 0 → res = []) :=
  ⟨by decide,
    c5_truncation_of_comparable [[FV.fin 2], [FV.fin 1]] [FV.fin 1] 5
      (by decide)⟩

/-- C7: every entry of a successful `score_vector_similarity` result pairs
a row index with the dot product of that store row and the query; on the
concrete store `v0=[1,0]`, `v1=[0,1]`, `v2=[-1,0]` with query `[1,0]` and
`top_k = 2`, the result is `[(0, 1.0), (1, 0.0)]`. -/
theorem c7_scores_are_dot_products :
    (∀ (store : List (List (FV K))) (vector : List (FV K)) (top_k : Nat)
        (res : List (Nat × FV K)),
        score_vector_similarity store vector top_k = .ok res →
        ∀ p ∈ res, p.2 = dotF (store.getD p.1 []) vector) ∧
      score_vector_similarity (K := ℚ)
        [[FV.fin 1, FV.fin 0], [FV.fin 0, FV.fin 1], [FV.fin (-1), FV.fin 0]]
        [FV.fin 1, FV.fin 0] 2 = .ok [(0, FV.fin 1), (1, FV.fin 0)] := by
  constructor
  · intro store vector top_k res hres p hp
    unfold score_vector_similarity at hres
    split at hres
    · simp at hres
    · rename_i sorted heq
      cases Except.ok.inj hres
      have hmem : p ∈ sorted := List.mem_of_mem_take hp
      have hmem2 : p ∈ scoreList store vector := by
        simpa using (sortScores_perm heq).mem_iff.mp hmem
      obtain ⟨i, _, hpe⟩ := List.mem_map.mp hmem2
      cases hpe
      rfl
  · have h : scoreList (K := ℚ)
        [[FV.fin 1, FV.fin 0], [FV.fin 0, FV.fin 1], [FV.fin (-1), FV.fin 0]]
        [FV.fin 1, FV.fin 0] =
        [(0, FV.fin 1), (1, FV.fin 0), (2, FV.fin (-1))] := by
      norm_num [scoreList, dotF, sumF, FV.mul, FV.add, List.range_succ]
    unfold score_vector_similarity
    rw [h]
    decide

/-- C7 witness: the top-ranked entry of the concrete scenario carries
exactly the dot product of store row 0 with the query. -/
theorem c7_witness :
    ((0 : Nat), FV.fin (1 : ℚ)).2 =
      dotF (([[FV.fin 1, FV.fin 0], [FV.fin 0, FV.fin 1],
          [FV.fin (-1), FV.fin 0]] : List (List (FV ℚ))).getD
        ((0 : Nat), FV.fin (1 : ℚ)).1 []) [FV.fin 1, FV.fin 0] :=
  (c7_scores_are_dot_products (K := ℚ)).1 _ _ 2 _
    (c7_scores_are_dot_products (K := ℚ)).2 _ (by decide)

/-- C3 counterexample: an all-zero row does not make `l2_normalize` fail;
it is silently mapped to a row of NaN values (0/0) in a successful
result. -/
theorem c3_counterexample :
    l2_normalize (K := ℚ) [[0, 0]] = [[FV.nan, FV.nan]] := by
  have hs : sumSq ([0, 0] : List ℚ) = 0 := by norm_num [sumSq]
  simp [l2_normalize, hs, SqrtOp.sqrt_zero, FV.div]

/-- C3 (amended): `l2_normalize` cannot fail at all on a well-formed
matrix; an all-zero row is mapped, entry by entry, to NaN (0 divided by
the zero norm), so the zero-norm case is silently handled rather than
reported as a NumericError. -/
theorem c3_zero_row_silent_nan (m : Mat K) (i : Nat) (hi : i < m.length)
    (hz : ∀ x ∈ m.getD i [], x = 0) :
    (l2_normalize m).getD i [] = (m.getD i []).map (fun _ => FV.nan) := by
  rw [List.getD_eq_getElem?_getD, l2_normalize, List.getElem?_map,
    List.getElem?_eq_getElem hi]
  rw [List.getD_eq_getElem _ _ hi] at hz ⊢
  simp only [Option.map_some', Option.getD_some]
  have hs : sumSq m[i] = 0 := by
    apply List.sum_eq_zero
    intro y hy
    obtain ⟨x, hx, rfl⟩ := List.mem_map.mp hy
    rw [hz x hx, mul_zero]
  rw [hs, SqrtOp.sqrt_zero]
  apply List.map_congr_left
  intro x hx
  simp [FV.div]

/-- C3 witness: the matrix `[[0,0],[3,4]]` contains the all-zero row 0,
and `l2_normalize` maps that row to `[NaN, NaN]`. -/
theorem c3_witness :
    ((0 : Nat) < ([[0, 0], [3, 4]] : Mat ℚ).length ∧
        ∀ x ∈ ([[0, 0], [3, 4]] : Mat ℚ).getD 0 [], x = 0) ∧
      (l2_normalize ([[0, 0], [3, 4]] : Mat ℚ)).getD 0 [] =
        (([[0, 0], [3, 4]] : Mat ℚ).getD 0 []).map (fun _ => FV.nan) :=
  ⟨⟨by decide, by decide⟩,
    c3_zero_row_silent_nan [[0, 0], [3, 4]] 0 (by decide) (by decide)⟩

theorem getD_map_general {α β : Type} (f : α → β) (l : List α) (b : Nat)
    (h : b < l.length) (da : α) (db : β) :
    (l.map f).getD b db = f (l.getD b da) := by
  rw [List.getD_eq_getElem?_getD, List.getElem?_map, List.getElem?_eq_getElem h,
    Option.map_some', Option.getD_some, List.getD_eq_getElem _ _ h]

theorem getD_zipWith {f : K → K → K} {l1 l2 : List K} {k : Nat}
    (h1 : k < l1.length) (h2 : k < l2.length) :
    (List.zipWith f l1 l2).getD k 0 = f (l1.getD k 0) (l2.getD k 0) := by
  have hz : k < (List.zipWith f l1 l2).length := by
    rw [List.length_zipWith]; exact lt_min h1 h2
  rw [List.getD_eq_getElem _ _ hz, List.getD_eq_getElem _ _ h1,
    List.getD_eq_getElem _ _ h2, List.getElem_zipWith]

theorem foldl_zipWith_length (f : K → K → K) :
    ∀ (rs : List (List K)) (r : List K), (∀ p ∈ rs, p.length = r.length) →
      (rs.foldl (List.zipWith f) r).length = r.length := by
  intro rs
  induction rs with
  | nil => intro r _; rfl
  | cons p ps ih =>
    intro r hlen
    have hpr : p.length = r.length := hlen p (List.mem_cons_self p ps)
    have hz : (List.zipWith f r p).length = r.length := by
      rw [List.length_zipWith, hpr]; exact min_self _
    rw [List.foldl_cons,
      ih (List.zipWith f r p)
        (fun q hq => by rw [hz]; exact hlen q (List.mem_cons_of_mem p hq)),
      hz]

theorem foldl_zipWith_getD (f : K → K → K) {k : Nat} :
    ∀ (rs : List (List K)) (r : List K), (∀ p ∈ rs, p.length = r.length) →
      k < r.length →
      (rs.foldl (List.zipWith f) r).getD k 0 =
        rs.foldl (fun a row => f a (row.getD k 0)) (r.getD k 0) := by
  intro rs
  induction rs with
  | nil => intro r _ _; rfl
  | cons p ps ih =>
    intro r hlen hk
    have hpr : p.length = r.length := hlen p (List.mem_cons_self p ps)
    have hz : (List.zipWith f r p).length = r.length := by
      rw [List.length_zipWith, hpr]; exact min_self _
    rw [List.foldl_cons, List.foldl_cons,
      ih (List.zipWith f r p)
        (fun q hq => by rw [hz]; exact hlen q (List.mem_cons_of_mem p hq))
        (by rw [hz]; exact hk),
      getD_zipWith hk (hpr ▸ hk)]

theorem foldl_add_map_sum {α : Type} :
    ∀ (l : List α) (g : α → K) (a : K),
      l.foldl (fun x y => x + g y) a = a + (l.map g).sum := by
  intro l
  induction l with
  | nil => intro g a; simp
  | cons x xs ih =>
    intro g a
    rw [List.foldl_cons, ih, List.map_cons, List.sum_cons, add_assoc]

theorem le_foldl_max :
    ∀ (l : List K) (a b : K), a ≤ b → a ≤ l.foldl max b := by
  intro l
  induction l with
  | nil => intro a b h; simpa using h
  | cons x xs ih =>
    intro a b h
    rw [List.foldl_cons]
    exact ih a (max b x) (le_trans h (le_max_left b x))

theorem foldl_max_mem :
    ∀ (l : List K) (a : K), l.foldl max a = a ∨ l.foldl max a ∈ l := by
  intro l
  induction l with
  | nil => intro a; exact Or.inl rfl
  | cons x xs ih =>
    intro a
    rw [List.foldl_cons]
    rcases ih (max a x) with h | h
    · rcases max_choice a x with h2 | h2
      · exact Or.inl (h.trans h2)
      · exact Or.inr (by rw [h, h2]; exact List.mem_cons_self x xs)
    · exact Or.inr (List.mem_cons_of_mem x h)

theorem le_foldl_max_of_mem :
    ∀ {l : List K} {x : K} (a : K), x ∈ l → x ≤ l.foldl max a := by
  intro l
  induction l with
  | nil => intro x a h; simp at h
  | cons y ys ih =>
    intro x a h
    rw [List.foldl_cons]
    rcases List.mem_cons.mp h with rfl | h2
    · exact le_foldl_max ys x (max a x) (le_max_right a x)
    · exact ih _ h2

theorem sumSq_nonneg (row : List K) : 0 ≤ sumSq row := by
  apply List.sum_nonneg
  intro y hy
  obtain ⟨x, _, rfl⟩ := List.mem_map.mp hy
  exact mul_self_nonneg x

theorem sumF_map_fin {α : Type} (l : List α) (g : α → K) :
    sumF (l.map (fun x => FV.fin (g x))) = FV.fin ((l.map g).sum) := by
  induction l with
  | nil => simp [sumF]
  | cons x xs ih =>
    simp only [List.map_cons, sumF, List.foldr_cons] at ih ⊢
    rw [ih, FV.add, List.sum_cons]

theorem sum_map_div {α : Type} (l : List α) (g : α → K) (c : K) :
    (l.map (fun x => g x / c)).sum = (l.map g).sum / c := by
  induction l with
  | nil => simp
  | cons x xs ih => simp [List.sum_cons, ih, add_div]

/-- C9: for every 3-dimensional HiddenStates input of shape
`(batch, seq_len, hidden)`, `apply_mean_pooling` returns a
`(batch, hidden)` matrix whose entry `[b][k]` is the sum over the sequence
axis of `input[b][i][k]` divided by the raw sequence length `seq_len`,
padding positions included (no attention mask excludes them). -/
theorem c9_mean_pooling (t : HS K) (s h : Nat)
    (hrect : ∀ m ∈ t, m.length = s ∧ ∀ r ∈ m, r.length = h)
    (hs : 0 < s) (b k : Nat) (hb : b < t.length) (hk : k < h) :
    ((apply_mean_pooling t).getD b []).getD k 0 =
      ((t.getD b []).map (fun r => r.getD k 0)).sum / (s : K) := by
  have hmem : t.getD b [] ∈ t := by
    rw [List.getD_eq_getElem _ _ hb]; exact List.getElem_mem hb
  obtain ⟨hms, hmh⟩ := hrect (t.getD b []) hmem
  have hnt : nTokens t = s := by
    cases t with
    | nil => simp at hb
    | cons t0 ts => exact (hrect t0 (List.mem_cons_self t0 ts)).1
  obtain ⟨r, rs, hcons⟩ : ∃ r rs, t.getD b [] = r :: rs := by
    cases hm : t.getD b [] with
    | nil => rw [hm] at hms; rw [← hms] at hs; simp at hs
    | cons r rs => exact ⟨r, rs, rfl⟩
  have hrh : r.length = h := hmh r (by rw [hcons]; exact List.mem_cons_self r rs)
  have hrs : ∀ p ∈ rs, p.length = r.length := by
    intro p hp
    rw [hmh p (by rw [hcons]; exact List.mem_cons_of_mem r hp), hrh]
  rw [apply_mean_pooling,
    getD_map_general _ _ b (by rw [List.length_map]; exact hb) [] [],
    getD_map_general _ _ b hb [] []]
  rw [hcons, reduceAxis1]
  have hflen : (rs.foldl (List.zipWith (· + ·)) r).length = r.length :=
    foldl_zipWith_length _ rs r hrs
  rw [getD_map_general _ _ k (by rw [hflen, hrh]; exact hk) 0 0]
  rw [foldl_zipWith_getD _ rs r hrs (by rw [hrh]; exact hk)]
  rw [foldl_add_map_sum, List.map_cons, List.sum_cons, hnt]

/-- C9 witness: mean pooling of the batch `[[[1,2],[3,0],[-1,5]]]` at
entry `(0,0)` equals `(1 + 3 + (-1)) / 3`. -/
theorem c9_witness :
    ((∀ m ∈ ([[[1, 2], [3, 0], [-1, 5]]] : HS ℚ),
          m.length = 3 ∧ ∀ r ∈ m, r.length = 2) ∧
        (0 : Nat) < 3 ∧ (0 : Nat) < 1 ∧ (0 : Nat) < 2) ∧
      ((apply_mean_pooling ([[[1, 2], [3, 0], [-1, 5]]] : HS ℚ)).getD 0
          []).getD 0 0 =
        ((([[[1, 2], [3, 0], [-1, 5]]] : HS ℚ).getD 0 []).map
            (fun r => r.getD 0 0)).sum / ((3 : Nat) : ℚ) :=
  ⟨⟨by norm_num, by norm_num⟩,
    c9_mean_pooling [[[1, 2], [3, 0], [-1, 5]]] 3 2 (by norm_num)
      (by norm_num) 0 0 (by norm_num) (by norm_num)⟩

/-- C6: for every 3-dimensional HiddenStates input of shape
`(batch, seq_len, hidden)`, the entry `[b][k]` of `apply_max_pooling` is
the maximum over the sequence axis of `input[b][i][k]` (it is attained at
some sequence position and bounds every position); concretely, the input
`[[[1,2],[3,0],[-1,5]]]` pools to `[[3,5]]`, which `l2_normalize` maps to
`[[3/sqrt 34, 5/sqrt 34]]`. -/
theorem c6_max_pooling (t : HS ℝ) (s h : Nat)
    (hrect : ∀ m ∈ t, m.length = s ∧ ∀ r ∈ m, r.length = h)
    (hs : 0 < s) (b k : Nat) (hb : b < t.length) (hk : k < h) :
    ((∃ i, i < s ∧ ((apply_max_pooling t).getD b []).getD k 0 =
          ((t.getD b []).getD i []).getD k 0) ∧
        (∀ i, i < s → ((t.getD b []).getD i []).getD k 0 ≤
          ((apply_max_pooling t).getD b []).getD k 0)) ∧
      l2_normalize (apply_max_pooling [[[(1 : ℝ), 2], [3, 0], [-1, 5]]]) =
        [[FV.fin (3 / Real.sqrt 34), FV.fin (5 / Real.sqrt 34)]] := by
  constructor
  · have hmem : t.getD b [] ∈ t := by
      rw [List.getD_eq_getElem _ _ hb]; exact List.getElem_mem hb
    obtain ⟨hms, hmh⟩ := hrect (t.getD b []) hmem
    obtain ⟨r, rs, hcons⟩ : ∃ r rs, t.getD b [] = r :: rs := by
      cases hm : t.getD b [] with
      | nil => rw [hm] at hms; rw [← hms] at hs; simp at hs
      | cons r rs => exact ⟨r, rs, rfl⟩
    have hrh : r.length = h := hmh r (by rw [hcons]; exact List.mem_cons_self r rs)
    have hrs : ∀ p ∈ rs, p.length = r.length := by
      intro p hp
      rw [hmh p (by rw [hcons]; exact List.mem_cons_of_mem r hp), hrh]
    have hv : ((apply_max_pooling t).getD b []).getD k 0 =
        List.foldl max (r.getD k 0) (rs.map (fun q => q.getD k 0)) := by
      rw [apply_max_pooling, getD_map_general _ _ b hb [] [],
        hcons, reduceAxis1,
        foldl_zipWith_getD _ rs r hrs (by rw [hrh]; exact hk),
        List.foldl_map]
    constructor
    · rcases foldl_max_mem (rs.map (fun q => q.getD k 0)) (r.getD k 0) with
        he | he
      · refine ⟨0, hs, ?_⟩
        rw [hv, he, hcons, List.getD_cons_zero]
      · obtain ⟨q, hq, hqe⟩ := List.mem_map.mp he
        obtain ⟨i, hilen, hie⟩ := List.getElem_of_mem hq
        refine ⟨i + 1, ?_, ?_⟩
        · rw [← hms, hcons]; simpa using hilen
        · rw [hv, ← hqe, ← hie, hcons, List.getD_cons_succ,
            List.getD_eq_getElem _ _ hilen]
    · intro i hi
      rw [hv, hcons]
      have hi2 : i < (r :: rs).length := by rw [← hcons, hms]; exact hi
      have hrowmem : (r :: rs).getD i [] ∈ r :: rs := by
        rw [List.getD_eq_getElem _ _ hi2]; exact List.getElem_mem hi2
      rcases List.mem_cons.mp hrowmem with he | he
      · rw [he]
        exact le_foldl_max _ _ _ le_rfl
      · exact le_foldl_max_of_mem _
          (List.mem_map.mpr ⟨_, he, rfl⟩)
  · have m1 : (1 : ℝ) ⊔ 3 = 3 := max_eq_right (by norm_num)
    have m2 : (3 : ℝ) ⊔ (-1) = 3 := max_eq_left (by norm_num)
    have m3 : (2 : ℝ) ⊔ 0 = 2 := max_eq_left (by norm_num)
    have m4 : (2 : ℝ) ⊔ 5 = 5 := max_eq_right (by norm_num)
    have hpool : apply_max_pooling [[[(1 : ℝ), 2], [3, 0], [-1, 5]]] =
        [[(3 : ℝ), 5]] := by
      simp [apply_max_pooling, reduceAxis1, m1, m2, m3, m4]
    rw [hpool]
    have hsum : sumSq ([3, 5] : List ℝ) = 34 := by norm_num [sumSq]
    have hne : Real.sqrt 34 ≠ 0 := Real.sqrt_ne_zero'.mpr (by norm_num)
    simp [l2_normalize, hsum, sqrtOp_real, FV.div, hne]

/-- C6 witness: the concrete input `[[[1,2],[3,0],[-1,5]]]` at batch 0,
hidden dimension 0: the pooled entry is attained on the sequence axis and
bounds it, and the concrete normalization holds. -/
theorem c6_witness :
    ((∀ m ∈ ([[[(1 : ℝ), 2], [3, 0], [-1, 5]]] : HS ℝ),
          m.length = 3 ∧ ∀ r ∈ m, r.length = 2) ∧
        (0 : Nat) < 3 ∧ (0 : Nat) < 1 ∧ (0 : Nat) < 2) ∧
      ((∃ i, i < 3 ∧
            ((apply_max_pooling ([[[(1 : ℝ), 2], [3, 0], [-1, 5]]] : HS ℝ)).getD
                0 []).getD 0 0 =
              ((([[[(1 : ℝ), 2], [3, 0], [-1, 5]]] : HS ℝ).getD 0 []).getD i
                  []).getD 0 0) ∧
          (∀ i, i < 3 →
            ((([[[(1 : ℝ), 2], [3, 0], [-1, 5]]] : HS ℝ).getD 0 []).getD i
                []).getD 0 0 ≤
              ((apply_max_pooling ([[[(1 : ℝ), 2], [3, 0], [-1, 5]]] : HS ℝ)).getD
                0 []).getD 0 0)) ∧
        l2_normalize (apply_max_pooling [[[(1 : ℝ), 2], [3, 0], [-1, 5]]]) =
          [[FV.fin (3 / Real.sqrt 34), FV.fin (5 / Real.sqrt 34)]] :=
  ⟨⟨by norm_num, by norm_num⟩,
    c6_max_pooling [[[(1 : ℝ), 2], [3, 0], [-1, 5]]] 3 2 (by norm_num)
      (by norm_num) 0 0 (by norm_num) (by norm_num)⟩

/-- C8: for every input matrix in which every row has nonzero norm (its
sum of squares is a nonzero number), every row of the output of
`l2_normalize` has L2 norm equal to 1 within tolerance `1e-5`. -/
theorem c8_unit_norm (m : Mat ℝ) (hnz : ∀ row ∈ m, sumSq row ≠ 0) :
    ∀ orow ∈ l2_normalize m, ∃ s, rowNormF orow = FV.fin s ∧
      |s - 1| ≤ 1 / 100000 := by
  intro orow horow
  rw [l2_normalize] at horow
  obtain ⟨row, hrow, rfl⟩ := List.mem_map.mp horow
  have hS : sumSq row ≠ 0 := hnz row hrow
  have hSnn : 0 ≤ sumSq row := sumSq_nonneg row
  have hSpos : 0 < sumSq row := lt_of_le_of_ne hSnn (Ne.symm hS)
  have hsq : Real.sqrt (sumSq row) ≠ 0 := Real.sqrt_ne_zero'.mpr hSpos
  refine ⟨1, ?_, by norm_num⟩
  have hrowval : row.map
      (fun x => FV.div (.fin x) (.fin (SqrtOp.sqrt (sumSq row)))) =
      row.map (fun x => FV.fin (x / Real.sqrt (sumSq row))) := by
    apply List.map_congr_left
    intro x _
    rw [FV.div, sqrtOp_real, if_neg hsq]
  rw [hrowval, rowNormF, List.map_map]
  have hmulval : ((fun y => FV.mul y y) ∘
      fun x => FV.fin (x / Real.sqrt (sumSq row))) =
      fun x => FV.fin (x * x / sumSq row) := by
    funext x
    simp only [Function.comp_apply, FV.mul]
    rw [div_mul_div_comm, Real.mul_self_sqrt hSnn]
  rw [hmulval, sumF_map_fin, sum_map_div, ← sumSq, div_self hS, FV.sqrt,
    sqrtOp_real, Real.sqrt_one]

/-- C8 witness: the one-row matrix `[[3,4]]` has nonzero row norm, and the
normalized output row has norm exactly 1, within the `1e-5` tolerance. -/
theorem c8_witness :
    (∀ row ∈ ([[3, 4]] : Mat ℝ), sumSq row ≠ 0) ∧
      ∀ orow ∈ l2_normalize ([[3, 4]] : Mat ℝ), ∃ s,
        rowNormF orow = FV.fin s ∧ |s - 1| ≤ 1 / 100000 :=
  ⟨by norm_num [sumSq], c8_unit_norm [[3, 4]] (by norm_num [sumSq])⟩

/-- C4: encoding the one-element batch `[s]` via `create_embeddings`
produces the same embedding as encoding `s` via
`infer_sentence_embedding`, given the same tokenizer and encoder forward
function, under max pooling.  The hypothesis is the tokenizer-adapter
contract that batch-encoding a singleton yields exactly the
single-sentence encoding (padding to the longest element of a singleton
batch pads to its own length). -/
theorem c4_batch_singleton_eq_single (tok : String → List Nat)
    (encode_batch : List String → List (List Nat))
    (forward : List (List Nat) → List (List Nat) → HS K) (s : String)
    (hpad : encode_batch [s] = [tok s]) :
    create_embeddings encode_batch forward [s] =
      infer_sentence_embedding tok forward s := by
  unfold create_embeddings infer_sentence_embedding
  rw [hpad]

/-- C4 witness: a concrete tokenizer pair satisfying the singleton-batch
contract, and the resulting equality of the two encoding paths. -/
theorem c4_witness :
    ((fun ss => ss.map (fun _ => [1, 2])) [" "] =
        [(fun _ : String => [1, 2]) " "]) ∧
      create_embeddings (K := ℚ) (fun ss => ss.map (fun _ => [1, 2]))
          (fun ids _ => ids.map (fun r => r.map (fun n => [(n : ℚ)]))) [" "] =
        infer_sentence_embedding (fun _ => [1, 2])
          (fun ids _ => ids.map (fun r => r.map (fun n => [(n : ℚ)]))) " " :=
  ⟨rfl,
    c4_batch_singleton_eq_single (fun _ => [1, 2])
      (fun ss => ss.map (fun _ => [1, 2]))
      (fun ids _ => ids.map (fun r => r.map (fun n => [(n : ℚ)]))) " " rfl⟩

/-- C10: `apply_max_pooling` and `l2_normalize` act row-wise on the batch
axis: applying either to a batch-axis concatenation equals the
concatenation of the per-part applications, so one batch member never
influences another member's pooled or normalized output. -/
theorem c10_batch_rowwise (A B : HS K) (C D : Mat K) :
    apply_max_pooling (A ++ B) = apply_max_pooling A ++ apply_max_pooling B ∧
      l2_normalize (C ++ D) = l2_normalize C ++ l2_normalize D := by
  constructor
  · rw [apply_max_pooling, apply_max_pooling, apply_max_pooling,
      List.map_append]
  · rw [l2_normalize, l2_normalize, l2_normalize, List.map_append]

end DenseSearch
